import Mathlib

/-!
Verification development for the pylex lexical-analyzer generator.

States of the automata in the source are Python objects; here they are
modelled by natural-number identifiers. Symbols of the alphabet SIGMA are
modelled by natural numbers; an NFA transition label is an
Option Nat, where none models the Python key None (epsilon). The
development embeds, faithfully to the source:

* pylex/nfa.py      : NFAState.epsilon_closure, NFA._delta_closure,
                      NFA._configuration_accepting, NFA._rabin_scott,
                      NFAState.add_transition
* pylex/dfa.py      : DFA._initial_partition, DFA._split, DFA._hopcroft,
                      DFAState.add_transition
* pylex/reparser.py : RegexParser (recursive descent over Token streams)
* pylex/rescanner.py: RegexScanner._lex_char_class
* pylex/automaton.py: AutomatonState._ensure_not_numbered
-/

namespace Pylex

/-! ## Generic saturation (worklist closure) over finite sets of states

Both NFAState.epsilon_closure in nfa.py and the reachability walk in
DFA._initial_partition compute the closure of a seed set under a successor
map by a worklist saturation. The saturation is modelled as iteration of a
single expansion step; iterating card-of-universe many times reaches the
fixed point, which is proved below. -/

/-- One saturation step: add all successors of members of T. -/
def satStep (f : Nat → Finset Nat) (T : Finset Nat) : Finset Nat :=
  T ∪ T.biUnion f

/-- Iterated saturation from the seed set T0. -/
def satIter (f : Nat → Finset Nat) (T0 : Finset Nat) : Nat → Finset Nat
  | 0 => T0
  | n + 1 => satStep f (satIter f T0 n)

/-- Reachability along the successor map f. -/
def ReachBy (f : Nat → Finset Nat) (s x : Nat) : Prop :=
  Relation.ReflTransGen (fun a b => b ∈ f a) s x

/-- A set closed under the successor map. -/
def ClosedUnder (f : Nat → Finset Nat) (T : Finset Nat) : Prop :=
  ∀ s ∈ T, f s ⊆ T

theorem subset_satStep (f : Nat → Finset Nat) (T : Finset Nat) : T ⊆ satStep f T :=
  Finset.subset_union_left

theorem satIter_subset_succ (f : Nat → Finset Nat) (T0 : Finset Nat) (n : Nat) :
    satIter f T0 n ⊆ satIter f T0 (n + 1) :=
  subset_satStep f _

theorem satIter_mono (f : Nat → Finset Nat) (T0 : Finset Nat) {m n : Nat} (h : m ≤ n) :
    satIter f T0 m ⊆ satIter f T0 n := by
  induction n with
  | zero => simp_all
  | succ k ih =>
    rcases Nat.lt_or_ge m (k + 1) with hlt | hge
    · exact (ih (Nat.lt_succ_iff.mp hlt)).trans (satIter_subset_succ f T0 k)
    · have : m = k + 1 := Nat.le_antisymm h hge
      subst this; exact subset_rfl

theorem subset_satIter (f : Nat → Finset Nat) (T0 : Finset Nat) (n : Nat) :
    T0 ⊆ satIter f T0 n :=
  satIter_mono f T0 (Nat.zero_le n)

theorem satIter_subset_univ {f : Nat → Finset Nat} {T0 U : Finset Nat}
    (hT0 : T0 ⊆ U) (hf : ∀ x ∈ U, f x ⊆ U) : ∀ n, satIter f T0 n ⊆ U := by
  intro n
  induction n with
  | zero => exact hT0
  | succ k ih =>
    intro x hx
    rcases Finset.mem_union.mp hx with hx | hx
    · exact ih hx
    · rcases Finset.mem_biUnion.mp hx with ⟨a, ha, hxa⟩
      exact hf a (ih ha) hxa

theorem satIter_stab {f : Nat → Finset Nat} {T0 : Finset Nat} {n : Nat}
    (h : satIter f T0 (n + 1) = satIter f T0 n) :
    ∀ m, satIter f T0 (n + m) = satIter f T0 n := by
  intro m
  induction m with
  | zero => rfl
  | succ k ih =>
    have : satIter f T0 (n + (k + 1)) = satStep f (satIter f T0 (n + k)) := rfl
    rw [this, ih]
    exact h

theorem satIter_card_grow {f : Nat → Finset Nat} {T0 : Finset Nat} {n : Nat}
    (h : ∀ m < n, satIter f T0 (m + 1) ≠ satIter f T0 m) :
    T0.card + n ≤ (satIter f T0 n).card := by
  induction n with
  | zero => simp [satIter]
  | succ k ih =>
    have hk : T0.card + k ≤ (satIter f T0 k).card :=
      ih (fun m hm => h m (Nat.lt_succ_of_lt hm))
    have hne : satIter f T0 (k + 1) ≠ satIter f T0 k := h k (Nat.lt_succ_self k)
    have hss : satIter f T0 k ⊂ satIter f T0 (k + 1) :=
      Finset.ssubset_iff_subset_ne.mpr ⟨satIter_subset_succ f T0 k, fun he => hne he.symm⟩
    have := Finset.card_lt_card hss
    omega

/-- The closure of T0 under f inside the finite universe U. -/
def closureIn (f : Nat → Finset Nat) (U T0 : Finset Nat) : Finset Nat :=
  satIter f T0 U.card

theorem closureIn_fix {f : Nat → Finset Nat} {T0 U : Finset Nat}
    (hT0 : T0 ⊆ U) (hf : ∀ x ∈ U, f x ⊆ U) :
    satStep f (closureIn f U T0) = closureIn f U T0 := by
  by_contra hne
  have hns : satIter f T0 (U.card + 1) ≠ satIter f T0 U.card := hne
  have hall : ∀ m < U.card + 1, satIter f T0 (m + 1) ≠ satIter f T0 m := by
    intro m hm hstab
    have h1 : satIter f T0 (m + (U.card - m)) = satIter f T0 m := satIter_stab hstab _
    have h2 : satIter f T0 (m + (U.card + 1 - m)) = satIter f T0 m := satIter_stab hstab _
    have e1 : m + (U.card - m) = U.card := by omega
    have e2 : m + (U.card + 1 - m) = U.card + 1 := by omega
    rw [e1] at h1; rw [e2] at h2
    exact hns (h2.trans h1.symm)
  have hgrow := satIter_card_grow hall
  have hb : (satIter f T0 (U.card + 1)).card ≤ U.card :=
    Finset.card_le_card (satIter_subset_univ hT0 hf (U.card + 1))
  omega

theorem subset_closureIn (f : Nat → Finset Nat) (U T0 : Finset Nat) :
    T0 ⊆ closureIn f U T0 :=
  subset_satIter f T0 U.card

theorem closureIn_subset_univ {f : Nat → Finset Nat} {T0 U : Finset Nat}
    (hT0 : T0 ⊆ U) (hf : ∀ x ∈ U, f x ⊆ U) : closureIn f U T0 ⊆ U :=
  satIter_subset_univ hT0 hf U.card

theorem mem_satIter_reach {f : Nat → Finset Nat} {T0 : Finset Nat} {n : Nat} {x : Nat}
    (hx : x ∈ satIter f T0 n) : ∃ s ∈ T0, ReachBy f s x := by
  induction n generalizing x with
  | zero => exact ⟨x, hx, Relation.ReflTransGen.refl⟩
  | succ k ih =>
    rcases Finset.mem_union.mp hx with hx | hx
    · exact ih hx
    · rcases Finset.mem_biUnion.mp hx with ⟨a, ha, hxa⟩
      rcases ih ha with ⟨s, hs, hreach⟩
      exact ⟨s, hs, hreach.tail hxa⟩

theorem reach_mem_closureIn {f : Nat → Finset Nat} {T0 U : Finset Nat}
    (hT0 : T0 ⊆ U) (hf : ∀ x ∈ U, f x ⊆ U) {s x : Nat}
    (hs : s ∈ T0) (hr : ReachBy f s x) : x ∈ closureIn f U T0 := by
  induction hr with
  | refl => exact subset_closureIn f U T0 hs
  | tail hab hbc ih =>
    have hfix := closureIn_fix hT0 hf
    rw [← hfix]
    exact Finset.mem_union.mpr (Or.inr (Finset.mem_biUnion.mpr ⟨_, ih, hbc⟩))

theorem mem_closureIn_iff {f : Nat → Finset Nat} {T0 U : Finset Nat}
    (hT0 : T0 ⊆ U) (hf : ∀ x ∈ U, f x ⊆ U) (x : Nat) :
    x ∈ closureIn f U T0 ↔ ∃ s ∈ T0, ReachBy f s x :=
  ⟨mem_satIter_reach, fun ⟨s, hs, hr⟩ => reach_mem_closureIn hT0 hf hs hr⟩

theorem closureIn_closed {f : Nat → Finset Nat} {T0 U : Finset Nat}
    (hT0 : T0 ⊆ U) (hf : ∀ x ∈ U, f x ⊆ U) :
    ClosedUnder f (closureIn f U T0) := by
  intro s hs t ht
  have hfix := closureIn_fix hT0 hf
  rw [← hfix]
  exact Finset.mem_union.mpr (Or.inr (Finset.mem_biUnion.mpr ⟨s, hs, ht⟩))

theorem ClosedUnder.mem_of_reach {f : Nat → Finset Nat} {T : Finset Nat}
    (hc : ClosedUnder f T) {s x : Nat} (hs : s ∈ T) (hr : ReachBy f s x) : x ∈ T := by
  induction hr with
  | refl => exact hs
  | tail hab hbc ih => exact hc _ ih hbc

theorem closureIn_eq_self {f : Nat → Finset Nat} {T0 U : Finset Nat}
    (hT0 : T0 ⊆ U) (hf : ∀ x ∈ U, f x ⊆ U) (hc : ClosedUnder f T0) :
    closureIn f U T0 = T0 := by
  apply Finset.Subset.antisymm
  · intro x hx
    rcases mem_satIter_reach hx with ⟨s, hs, hr⟩
    exact hc.mem_of_reach hs hr
  · exact subset_closureIn f U T0

theorem closureIn_eq_self_iff {f : Nat → Finset Nat} {T0 U : Finset Nat}
    (hT0 : T0 ⊆ U) (hf : ∀ x ∈ U, f x ⊆ U) :
    closureIn f U T0 = T0 ↔ ClosedUnder f T0 := by
  constructor
  · intro h
    rw [← h]
    exact closureIn_closed hT0 hf
  · exact closureIn_eq_self hT0 hf

/-! ## NFA model (pylex/nfa.py)

An NFA is a graph of NFAState objects; here a state is a Nat identifier
drawn from a finite set of states. The transitions dictionary of a state
maps a symbol key (Option Nat, none being the Python key None for epsilon)
to a set of target states. -/

/-- Model of the NFA class of nfa.py plus its state graph: the states
field collects the identifiers of the states of the automaton, trans models
the per-state transitions dictionaries, accepting the per-state accepting
attribute, initial the initial state, and sigma the alphabet SIGMA. -/
structure NFAAut where
  states : Finset Nat
  trans : Nat → Option Nat → Finset Nat
  accepting : Nat → Option Nat
  initial : Nat
  sigma : List Nat

/-- Well-formedness of the model: the initial state is a state, every
transition targets states, and SIGMA is a set (no duplicate symbols). -/
def NFAAut.WF (A : NFAAut) : Prop :=
  A.initial ∈ A.states ∧ (∀ s k, A.trans s k ⊆ A.states) ∧ A.sigma.Nodup

/-- Epsilon successors of a state: transitions.get(None, set()). -/
def epsSucc (A : NFAAut) (s : Nat) : Finset Nat :=
  A.trans s none

/-- Model of NFAState.epsilon_closure (nfa.py): all states reachable from
this state in zero or more epsilon transitions, computed by worklist
saturation. -/
def epsilonClosure (A : NFAAut) (s : Nat) : Finset Nat :=
  closureIn (epsSucc A) A.states {s}

/-- Epsilon closure of a set of states (used on DFA configurations). -/
def closureOf (A : NFAAut) (T : Finset Nat) : Finset Nat :=
  closureIn (epsSucc A) A.states T

/-- Reachability by epsilon transitions in the NFA graph. -/
def EpsReach (A : NFAAut) (s x : Nat) : Prop :=
  ReachBy (epsSucc A) s x

/-- A set of NFA states closed under epsilon transitions. -/
def EpsClosed (A : NFAAut) (T : Finset Nat) : Prop :=
  ClosedUnder (epsSucc A) T

theorem NFAAut.WF.epsSucc_subset {A : NFAAut} (h : A.WF) :
    ∀ x ∈ A.states, epsSucc A x ⊆ A.states :=
  fun x _ => h.2.1 x none

theorem mem_epsilonClosure_iff {A : NFAAut} (h : A.WF) {s : Nat} (hs : s ∈ A.states)
    (x : Nat) : x ∈ epsilonClosure A s ↔ EpsReach A s x := by
  rw [epsilonClosure, mem_closureIn_iff (Finset.singleton_subset_iff.mpr hs) h.epsSucc_subset]
  simp [EpsReach]

theorem self_mem_epsilonClosure (A : NFAAut) (s : Nat) : s ∈ epsilonClosure A s :=
  subset_closureIn _ _ _ (Finset.mem_singleton_self s)

theorem epsilonClosure_subset {A : NFAAut} (h : A.WF) {s : Nat} (hs : s ∈ A.states) :
    epsilonClosure A s ⊆ A.states :=
  closureIn_subset_univ (Finset.singleton_subset_iff.mpr hs) h.epsSucc_subset

theorem epsilonClosure_closed {A : NFAAut} (h : A.WF) {s : Nat} (hs : s ∈ A.states) :
    EpsClosed A (epsilonClosure A s) :=
  closureIn_closed (Finset.singleton_subset_iff.mpr hs) h.epsSucc_subset

theorem closureOf_eq_self {A : NFAAut} (h : A.WF) {T : Finset Nat}
    (hT : T ⊆ A.states) (hc : EpsClosed A T) : closureOf A T = T :=
  closureIn_eq_self hT h.epsSucc_subset hc

theorem epsClosed_biUnion {A : NFAAut} {s : Finset Nat} {g : Nat → Finset Nat}
    (h : ∀ i ∈ s, EpsClosed A (g i)) : EpsClosed A (s.biUnion g) := by
  intro x hx t ht
  rcases Finset.mem_biUnion.mp hx with ⟨i, hi, hxi⟩
  exact Finset.mem_biUnion.mpr ⟨i, hi, h i hi _ hxi ht⟩

/-- Model of NFA._delta_closure (nfa.py): EpsilonClosure(Delta(q, c)), the
union of the epsilon closures of all c-targets of members of q. -/
def deltaClosure (A : NFAAut) (q : Finset Nat) (c : Nat) : Finset Nat :=
  q.biUnion (fun s => (A.trans s (some c)).biUnion (fun t => epsilonClosure A t))

theorem deltaClosure_subset {A : NFAAut} (h : A.WF) (q : Finset Nat) (c : Nat) :
    deltaClosure A q c ⊆ A.states := by
  intro x hx
  rcases Finset.mem_biUnion.mp hx with ⟨s, _, hx1⟩
  rcases Finset.mem_biUnion.mp hx1 with ⟨t, ht, hx2⟩
  exact epsilonClosure_subset h (h.2.1 s (some c) ht) hx2

theorem deltaClosure_closed {A : NFAAut} (h : A.WF) (q : Finset Nat) (c : Nat) :
    EpsClosed A (deltaClosure A q c) := by
  apply epsClosed_biUnion
  intro s _
  apply epsClosed_biUnion
  intro t ht
  exact epsilonClosure_closed h (h.2.1 s (some c) ht)

/-! ## Accepting ID of a configuration (nfa.py / rabinscott.py)

NFA._configuration_accepting and RabinScott._configuration_to_dfa_state
both evaluate min(state.accepting for state in q if state.accepting),
catching the ValueError of an empty min. The filter uses Python truthiness:
None and 0 are both falsy. -/

/-- Python truthiness of an Optional int. -/
def pyTruthy : Option Nat → Bool
  | none => false
  | some n => n != 0

/-- Model of NFA._configuration_accepting (nfa.py, also the body of
RabinScott._configuration_to_dfa_state in rabinscott.py): the minimum
accepting ID in the configuration q, or none if there is none. -/
def configurationAccepting (A : NFAAut) (q : Finset Nat) : Option Nat :=
  let vals := (q.filter (fun s => pyTruthy (A.accepting s))).image
    (fun s => (A.accepting s).getD 0)
  if h : vals.Nonempty then some (vals.min' h) else none

theorem mem_configVals {A : NFAAut} {q : Finset Nat}
    (hpos : ∀ s ∈ q, A.accepting s ≠ some 0) {s : Nat} (hs : s ∈ q)
    (hne : A.accepting s ≠ none) :
    (A.accepting s).getD 0 ∈
      (q.filter (fun s => pyTruthy (A.accepting s))).image
        (fun s => (A.accepting s).getD 0) := by
  apply Finset.mem_image.mpr
  refine ⟨s, Finset.mem_filter.mpr ⟨hs, ?_⟩, rfl⟩
  cases hacc : A.accepting s with
  | none => exact absurd hacc hne
  | some a =>
    have ha : a ≠ 0 := fun h0 => hpos s hs (h0 ▸ hacc)
    simp [pyTruthy, ha]

theorem configVals_mem {A : NFAAut} {q : Finset Nat} {m : Nat}
    (hm : m ∈ (q.filter (fun s => pyTruthy (A.accepting s))).image
      (fun s => (A.accepting s).getD 0)) :
    ∃ s ∈ q, A.accepting s = some m := by
  rcases Finset.mem_image.mp hm with ⟨s, hsf, hgd⟩
  rcases Finset.mem_filter.mp hsf with ⟨hsq, htr⟩
  cases hacc : A.accepting s with
  | none => rw [hacc] at htr; simp [pyTruthy] at htr
  | some a =>
    rw [hacc] at hgd
    simp only [Option.getD_some] at hgd
    exact ⟨s, hsq, by rw [hacc, hgd]⟩

/-- C4: for every DFA state created by the subset construction from an NFA
configuration q, the accepting field (computed by
NFA._configuration_accepting in nfa.py and identically by
RabinScott._configuration_to_dfa_state in rabinscott.py) is the minimum of
the accepting IDs of the accepting members of q, and is none exactly when
no member of q is accepting. The hypothesis reflects the documented data
model of automaton.py: accepting IDs are positive integers. -/
theorem claim_C4_configuration_accepting_min (A : NFAAut) (q : Finset Nat)
    (hpos : ∀ s ∈ q, A.accepting s ≠ some 0) :
    (configurationAccepting A q = none ↔ ∀ s ∈ q, A.accepting s = none) ∧
    (∀ m, configurationAccepting A q = some m →
      (∃ s ∈ q, A.accepting s = some m) ∧
      ∀ s ∈ q, ∀ a, A.accepting s = some a → m ≤ a) := by
  classical
  constructor
  · constructor
    · intro hnone s hs
      cases hacc : A.accepting s with
      | none => rfl
      | some a =>
        exfalso
        have hv := mem_configVals hpos hs (by simp [hacc])
        have hvne : ((q.filter (fun s => pyTruthy (A.accepting s))).image
            (fun s => (A.accepting s).getD 0)).Nonempty := ⟨_, hv⟩
        simp only [configurationAccepting] at hnone
        rw [dif_pos hvne] at hnone
        exact Option.noConfusion hnone
    · intro hall
      have hempty : q.filter (fun s => pyTruthy (A.accepting s)) = ∅ := by
        apply Finset.filter_eq_empty_iff.mpr
        intro s hs
        simp [hall s hs, pyTruthy]
      simp [configurationAccepting, hempty]
  · intro m hm
    have hvne : ((q.filter (fun s => pyTruthy (A.accepting s))).image
        (fun s => (A.accepting s).getD 0)).Nonempty := by
      by_contra hne
      simp only [configurationAccepting] at hm
      rw [dif_neg hne] at hm
      exact Option.noConfusion hm
    have hmmin : ((q.filter (fun s => pyTruthy (A.accepting s))).image
        (fun s => (A.accepting s).getD 0)).min' hvne = m := by
      simp only [configurationAccepting] at hm
      rw [dif_pos hvne] at hm
      exact Option.some.inj hm
    constructor
    · exact configVals_mem (hmmin ▸ Finset.min'_mem _ hvne)
    · intro s hs a hacc
      have hv : a ∈ (q.filter (fun s => pyTruthy (A.accepting s))).image
          (fun s => (A.accepting s).getD 0) := by
        have := mem_configVals hpos hs (by simp [hacc])
        rwa [hacc] at this
      rw [← hmmin]
      exact Finset.min'_le _ a hv

/-- Concrete NFA used to witness C4: state 1 accepts rule 2, state 2
accepts rule 1, state 0 does not accept. -/
def nfaExC4 : NFAAut where
  states := {0, 1, 2}
  trans := fun _ _ => ∅
  accepting := fun s => if s = 1 then some 2 else if s = 2 then some 1 else none
  initial := 0
  sigma := [0]

theorem claim_C4_witness :
    (∀ s ∈ ({0, 1, 2} : Finset Nat), nfaExC4.accepting s ≠ some 0) ∧
    ((configurationAccepting nfaExC4 {0, 1, 2} = none ↔
        ∀ s ∈ ({0, 1, 2} : Finset Nat), nfaExC4.accepting s = none) ∧
      (∀ m, configurationAccepting nfaExC4 {0, 1, 2} = some m →
        (∃ s ∈ ({0, 1, 2} : Finset Nat), nfaExC4.accepting s = some m) ∧
        ∀ s ∈ ({0, 1, 2} : Finset Nat), ∀ a, nfaExC4.accepting s = some a → m ≤ a)) :=
  ⟨by decide, claim_C4_configuration_accepting_min nfaExC4 {0, 1, 2} (by decide)⟩

/-! ## Rabin-Scott subset construction (NFA._rabin_scott in nfa.py)

The Python code builds DFAState objects keyed by frozenset configurations
in the dictionary Q, wires them with DFAState.add_transition, and drives a
LIFO worklist. DFA states are in bijection with their configurations, so
the model records the discovered configurations (the keys of Q, in
insertion order), the transition edges keyed by (configuration, symbol),
and the worklist (head = top of the Python list, which pops from the
end). DFAState.add_transition (dfa.py) is modelled with its two
assertions as error results. -/

/-- A configuration: a frozenset of NFA states. -/
abbrev Config := Finset Nat

/-- Linear lookup of an edge by (source configuration, symbol key). -/
def findEdge (es : List ((Config × Option Nat) × Config)) (key : Config × Option Nat) :
    Option Config :=
  match es with
  | [] => none
  | e :: r => if e.1 = key then some e.2 else findEdge r key

/-- Model of DFAState.add_transition (dfa.py): asserts that the symbol is
not None and that the state does not already have a transition on it. -/
def dfaAddTransition (es : List ((Config × Option Nat) × Config)) (src : Config)
    (sym : Option Nat) (tgt : Config) :
    Except String (List ((Config × Option Nat) × Config)) :=
  if sym = none then .error "DFA cannot contain epsilon transitions"
  else
    match findEdge es (src, sym) with
    | some _ => .error "state already contains given transition"
    | none => .ok (((src, sym), tgt) :: es)

/-- State of the subset-construction loop: discovered configurations (the
keys of the dictionary Q), DFA edges added so far, and the worklist. -/
structure RSState where
  keys : List Config
  edges : List ((Config × Option Nat) × Config)
  work : List Config

/-- Body of the for-symbol loop of NFA._rabin_scott for one symbol c:
compute t = EpsilonClosure(Delta(q, c)); if t is nonempty, create a DFA
state for t if t is new (and enqueue it), then add the edge q -c-> t. -/
def processSymbol (A : NFAAut) (q : Config) (c : Nat) (st : RSState) :
    Except String RSState :=
  if deltaClosure A q c = ∅ then .ok st
  else
    match dfaAddTransition st.edges q (some c) (deltaClosure A q c) with
    | .error e => .error e
    | .ok es =>
      if deltaClosure A q c ∈ st.keys then .ok ⟨st.keys, es, st.work⟩
      else .ok ⟨st.keys ++ [deltaClosure A q c], es, deltaClosure A q c :: st.work⟩

/-- The for-symbol loop of NFA._rabin_scott over the symbols of SIGMA. -/
def processSymbols (A : NFAAut) (q : Config) : List Nat → RSState → Except String RSState
  | [], st => .ok st
  | c :: cs, st =>
    match processSymbol A q c st with
    | .error e => .error e
    | .ok st1 => processSymbols A q cs st1

/-- The while-worklist loop of NFA._rabin_scott, with explicit fuel. The
fuel branch is never reached when called with fuel at least the loop
measure, which rabinScott_spec proves. -/
def rsLoop (A : NFAAut) : Nat → RSState → Except String RSState
  | 0, st =>
    match st.work with
    | [] => .ok st
    | _ :: _ => .error "fuel exhausted"
  | n + 1, st =>
    match st.work with
    | [] => .ok st
    | q :: rest =>
      match processSymbols A q A.sigma ⟨st.keys, st.edges, rest⟩ with
      | .error e => .error e
      | .ok st1 => rsLoop A n st1

/-- Model of NFA._rabin_scott (nfa.py): start from the epsilon closure of
the initial state and run the worklist loop. -/
def rabinScott (A : NFAAut) : Except String RSState :=
  let q0 := epsilonClosure A A.initial
  rsLoop A (2 ^ A.states.card) ⟨[q0], [], [q0]⟩

/-- Loop invariant of the subset construction. -/
structure RSInv (A : NFAAut) (st : RSState) : Prop where
  keysNodup : st.keys.Nodup
  workNodup : st.work.Nodup
  workKeys : ∀ q ∈ st.work, q ∈ st.keys
  keysGood : ∀ q ∈ st.keys, q ⊆ A.states ∧ q ≠ ∅ ∧ EpsClosed A q
  edgeSrcKeys : ∀ e ∈ st.edges, e.1.1 ∈ st.keys
  edgeSrcDone : ∀ e ∈ st.edges, e.1.1 ∉ st.work
  edgeForm : ∀ e ∈ st.edges, ∃ c ∈ A.sigma, e.1.2 = some c ∧
    e.2 = deltaClosure A e.1.1 c ∧ e.2 ≠ ∅ ∧ e.2 ∈ st.keys
  doneComplete : ∀ q ∈ st.keys, q ∉ st.work → ∀ c ∈ A.sigma,
    deltaClosure A q c ≠ ∅ → findEdge st.edges (q, some c) = some (deltaClosure A q c)

/-- Invariant holding while the popped configuration q is being processed:
like RSInv, but q is only complete for the symbols handled so far. -/
structure RSMid (A : NFAAut) (q : Config) (st : RSState) : Prop where
  keysNodup : st.keys.Nodup
  workNodup : st.work.Nodup
  workKeys : ∀ p ∈ st.work, p ∈ st.keys
  keysGood : ∀ p ∈ st.keys, p ⊆ A.states ∧ p ≠ ∅ ∧ EpsClosed A p
  qKeys : q ∈ st.keys
  qNotWork : q ∉ st.work
  edgeSrcKeys : ∀ e ∈ st.edges, e.1.1 ∈ st.keys
  edgeSrcDone : ∀ e ∈ st.edges, e.1.1 ∉ st.work
  edgeForm : ∀ e ∈ st.edges, ∃ c ∈ A.sigma, e.1.2 = some c ∧
    e.2 = deltaClosure A e.1.1 c ∧ e.2 ≠ ∅ ∧ e.2 ∈ st.keys
  doneCompleteExc : ∀ p ∈ st.keys, p ∉ st.work → p ≠ q → ∀ c ∈ A.sigma,
    deltaClosure A p c ≠ ∅ → findEdge st.edges (p, some c) = some (deltaClosure A p c)

theorem findEdge_none_of_src_ne {es : List ((Config × Option Nat) × Config)} {q : Config}
    (h : ∀ e ∈ es, e.1.1 ≠ q) (k : Option Nat) : findEdge es (q, k) = none := by
  induction es with
  | nil => rfl
  | cons e r ih =>
    rw [findEdge]
    rw [if_neg]
    · exact ih (fun e' he' => h e' (List.mem_cons_of_mem e he'))
    · intro hk
      exact h e (List.mem_cons_self e r) (by rw [hk])

theorem findEdge_some_mem {es : List ((Config × Option Nat) × Config)}
    {key : Config × Option Nat} {t : Config} (h : findEdge es key = some t) :
    ∃ e ∈ es, e.1 = key ∧ e.2 = t := by
  induction es with
  | nil => exact Option.noConfusion h
  | cons e r ih =>
    rw [findEdge] at h
    by_cases hk : e.1 = key
    · rw [if_pos hk] at h
      exact ⟨e, List.mem_cons_self e r, hk, Option.some.inj h⟩
    · rw [if_neg hk] at h
      rcases ih h with ⟨e', he', h1, h2⟩
      exact ⟨e', List.mem_cons_of_mem e he', h1, h2⟩

theorem processSymbol_spec (A : NFAAut) (wf : A.WF) (q : Config) (c : Nat)
    (hc : c ∈ A.sigma) (st : RSState) (hmid : RSMid A q st)
    (hnone : findEdge st.edges (q, some c) = none) :
    ∃ st', processSymbol A q c st = .ok st' ∧ RSMid A q st' ∧
      (findEdge st'.edges (q, some c) =
        if deltaClosure A q c = ∅ then none else some (deltaClosure A q c)) ∧
      (∀ key, key ≠ (q, some c) → findEdge st'.edges key = findEdge st.edges key) ∧
      (∀ p ∈ st.keys, p ∈ st'.keys) ∧
      (∀ p ∈ st'.work, p ∈ st.work ∨ p ∉ st.keys) ∧
      st'.keys.length + st.work.length = st.keys.length + st'.work.length := by
  by_cases ht : deltaClosure A q c = ∅
  · refine ⟨st, ?_, hmid, ?_, fun key _ => rfl, fun p hp => hp, fun p hp => Or.inl hp, rfl⟩
    · unfold processSymbol
      rw [if_pos ht]
    · rw [if_pos ht]
      exact hnone
  · have hadd : dfaAddTransition st.edges q (some c) (deltaClosure A q c) =
        .ok (((q, some c), deltaClosure A q c) :: st.edges) := by
      unfold dfaAddTransition
      rw [if_neg (by simp), hnone]
    have hfind : findEdge (((q, some c), deltaClosure A q c) :: st.edges) (q, some c) =
        some (deltaClosure A q c) := by
      rw [findEdge, if_pos rfl]
    have hframe : ∀ key, key ≠ (q, some c) →
        findEdge (((q, some c), deltaClosure A q c) :: st.edges) key = findEdge st.edges key := by
      intro key hk
      rw [findEdge, if_neg (fun h => hk h.symm)]
    have hEdgeSK : ∀ e ∈ ((q, some c), deltaClosure A q c) :: st.edges, e.1.1 ∈ st.keys := by
      intro e he
      rcases List.mem_cons.mp he with he | he
      · rw [he]; exact hmid.qKeys
      · exact hmid.edgeSrcKeys e he
    have hEdgeSD : ∀ e ∈ ((q, some c), deltaClosure A q c) :: st.edges, e.1.1 ∉ st.work := by
      intro e he
      rcases List.mem_cons.mp he with he | he
      · rw [he]; exact hmid.qNotWork
      · exact hmid.edgeSrcDone e he
    by_cases hmem : deltaClosure A q c ∈ st.keys
    · refine ⟨⟨st.keys, ((q, some c), deltaClosure A q c) :: st.edges, st.work⟩, ?_, ?_, ?_,
        hframe, fun p hp => hp, fun p hp => Or.inl hp, rfl⟩
      · unfold processSymbol
        rw [if_neg ht, hadd]
        simp only [if_pos hmem]
      · refine ⟨hmid.keysNodup, hmid.workNodup, hmid.workKeys, hmid.keysGood, hmid.qKeys,
          hmid.qNotWork, hEdgeSK, hEdgeSD, ?_, ?_⟩
        · intro e he
          rcases List.mem_cons.mp he with he | he
          · rw [he]
            exact ⟨c, hc, rfl, rfl, ht, hmem⟩
          · exact hmid.edgeForm e he
        · intro p hp hpw hpq c' hc' hne
          rw [findEdge, if_neg (by simp [hpq.symm])]
          exact hmid.doneCompleteExc p hp hpw hpq c' hc' hne
      · rw [if_neg ht]
        exact hfind
    · have htq : q ≠ deltaClosure A q c := fun h => hmem (h ▸ hmid.qKeys)
      have htw : deltaClosure A q c ∉ st.work := fun h => hmem (hmid.workKeys _ h)
      refine ⟨⟨st.keys ++ [deltaClosure A q c], ((q, some c), deltaClosure A q c) :: st.edges,
        deltaClosure A q c :: st.work⟩, ?_, ?_, ?_, hframe,
        fun p hp => List.mem_append_left _ hp, ?_, ?_⟩
      · unfold processSymbol
        rw [if_neg ht, hadd]
        simp only [if_neg hmem]
      · refine ⟨?_, ?_, ?_, ?_, List.mem_append_left _ hmid.qKeys, ?_, ?_, ?_, ?_, ?_⟩
        · rw [List.nodup_append]
          refine ⟨hmid.keysNodup, List.nodup_singleton _, ?_⟩
          intro a ha hb
          rw [List.mem_singleton] at hb
          exact hmem (hb ▸ ha)
        · exact List.nodup_cons.mpr ⟨htw, hmid.workNodup⟩
        · intro p hp
          rcases List.mem_cons.mp hp with hp | hp
          · rw [hp]
            exact List.mem_append_right _ (List.mem_singleton_self _)
          · exact List.mem_append_left _ (hmid.workKeys p hp)
        · intro p hp
          rcases List.mem_append.mp hp with hp | hp
          · exact hmid.keysGood p hp
          · rw [List.mem_singleton] at hp
            rw [hp]
            exact ⟨deltaClosure_subset wf q c, ht, deltaClosure_closed wf q c⟩
        · intro hq
          rcases List.mem_cons.mp hq with hq | hq
          · exact htq hq
          · exact hmid.qNotWork hq
        · intro e he
          exact List.mem_append_left _ (hEdgeSK e he)
        · intro e he
          intro hw
          rcases List.mem_cons.mp hw with hw | hw
          · exact hmem (hw ▸ hEdgeSK e he)
          · exact hEdgeSD e he hw
        · intro e he
          rcases List.mem_cons.mp he with he | he
          · rw [he]
            exact ⟨c, hc, rfl, rfl, ht, List.mem_append_right _ (List.mem_singleton_self _)⟩
          · rcases hmid.edgeForm e he with ⟨c', hc', h1, h2, h3, h4⟩
            exact ⟨c', hc', h1, h2, h3, List.mem_append_left _ h4⟩
        · intro p hp hpw hpq c' hc' hne
          have hpk : p ∈ st.keys := by
            rcases List.mem_append.mp hp with hp | hp
            · exact hp
            · rw [List.mem_singleton] at hp
              exact absurd (hp ▸ List.mem_cons_self _ _) hpw
          have hpw' : p ∉ st.work := fun h => hpw (List.mem_cons_of_mem _ h)
          rw [findEdge, if_neg (by simp [hpq.symm])]
          exact hmid.doneCompleteExc p hpk hpw' hpq c' hc' hne
      · rw [if_neg ht]
        exact hfind
      · intro p hp
        rcases List.mem_cons.mp hp with hp | hp
        · exact Or.inr (hp ▸ hmem)
        · exact Or.inl hp
      · simp only [List.length_append, List.length_cons, List.length_nil]
        omega

theorem processSymbols_spec (A : NFAAut) (wf : A.WF) (q : Config) :
    ∀ (cs : List Nat), (∀ c ∈ cs, c ∈ A.sigma) → cs.Nodup →
    ∀ st, RSMid A q st →
    (∀ c ∈ cs, findEdge st.edges (q, some c) = none) →
    ∃ st', processSymbols A q cs st = .ok st' ∧ RSMid A q st' ∧
      (∀ c ∈ cs, findEdge st'.edges (q, some c) =
        if deltaClosure A q c = ∅ then none else some (deltaClosure A q c)) ∧
      (∀ key : Config × Option Nat, (∀ c ∈ cs, key ≠ (q, some c)) →
        findEdge st'.edges key = findEdge st.edges key) ∧
      (∀ p ∈ st.keys, p ∈ st'.keys) ∧
      (∀ p ∈ st'.work, p ∈ st.work ∨ p ∉ st.keys) ∧
      st'.keys.length + st.work.length = st.keys.length + st'.work.length := by
  intro cs
  induction cs with
  | nil =>
    intro _ _ st hmid _
    exact ⟨st, rfl, hmid, fun c hc => absurd hc (List.not_mem_nil c),
      fun key _ => rfl, fun p hp => hp, fun p hp => Or.inl hp, rfl⟩
  | cons c cs' ih =>
    intro hsub hnd st hmid hnone
    have hc : c ∈ A.sigma := hsub c (List.mem_cons_self c cs')
    have hcn : c ∉ cs' := (List.nodup_cons.mp hnd).1
    rcases processSymbol_spec A wf q c hc st hmid (hnone c (List.mem_cons_self c cs')) with
      ⟨st1, hrun1, hmid1, hfind1, hframe1, hkeys1, hwork1, hlen1⟩
    have hnone' : ∀ c' ∈ cs', findEdge st1.edges (q, some c') = none := by
      intro c' hc'
      rw [hframe1 (q, some c') (by simp; intro h; exact hcn (h ▸ hc'))]
      exact hnone c' (List.mem_cons_of_mem c hc')
    rcases ih (fun c' hc' => hsub c' (List.mem_cons_of_mem c hc')) (List.nodup_cons.mp hnd).2
      st1 hmid1 hnone' with ⟨st2, hrun2, hmid2, hfind2, hframe2, hkeys2, hwork2, hlen2⟩
    refine ⟨st2, ?_, hmid2, ?_, ?_, fun p hp => hkeys2 p (hkeys1 p hp), ?_, by omega⟩
    · unfold processSymbols
      rw [hrun1]
      exact hrun2
    · intro c' hc'
      rcases List.mem_cons.mp hc' with hc' | hc'
      · subst hc'
        rw [hframe2 (q, some c') (by intro c2 hc2; simp; intro h; exact hcn (h ▸ hc2))]
        exact hfind1
      · exact hfind2 c' hc'
    · intro key hkey
      rw [hframe2 key (fun c2 hc2 => hkey c2 (List.mem_cons_of_mem c hc2))]
      exact hframe1 key (hkey c (List.mem_cons_self c cs'))
    · intro p hp
      rcases hwork2 p hp with hp2 | hp2
      · rcases hwork1 p hp2 with hp3 | hp3
        · exact Or.inl hp3
        · exact Or.inr hp3
      · exact Or.inr (fun h => hp2 (hkeys1 p h))

theorem rsKeys_length_le (A : NFAAut) (st : RSState) (hnd : st.keys.Nodup)
    (hgood : ∀ p ∈ st.keys, p ⊆ A.states) :
    st.keys.length ≤ 2 ^ A.states.card := by
  have hsub : st.keys.toFinset ⊆ A.states.powerset := by
    intro p hp
    exact Finset.mem_powerset.mpr (hgood p (List.mem_toFinset.mp hp))
  have h1 : st.keys.toFinset.card = st.keys.length := List.toFinset_card_of_nodup hnd
  have h2 := Finset.card_le_card hsub
  rw [h1, Finset.card_powerset] at h2
  exact h2

theorem rsLoop_spec (A : NFAAut) (wf : A.WF) :
    ∀ (fuel : Nat) (st : RSState), RSInv A st →
    st.work.length + (2 ^ A.states.card - st.keys.length) ≤ fuel →
    ∃ st', rsLoop A fuel st = .ok st' ∧ RSInv A st' ∧ st'.work = [] ∧
      (∀ p ∈ st.keys, p ∈ st'.keys) := by
  intro fuel
  induction fuel with
  | zero =>
    intro st hinv hm
    have hw : st.work = [] := by
      cases hwe : st.work with
      | nil => rfl
      | cons a l => rw [hwe] at hm; simp at hm
    refine ⟨st, ?_, hinv, hw, fun p hp => hp⟩
    unfold rsLoop
    rw [hw]
  | succ n ihn =>
    intro st hinv hm
    cases hwe : st.work with
    | nil =>
      refine ⟨st, ?_, hinv, hwe, fun p hp => hp⟩
      unfold rsLoop
      rw [hwe]
    | cons q rest =>
      have hq : q ∈ st.keys := hinv.workKeys q (hwe ▸ List.mem_cons_self q rest)
      have hqr : q ∉ rest := by
        have := hinv.workNodup
        rw [hwe] at this
        exact (List.nodup_cons.mp this).1
      have hmid : RSMid A q ⟨st.keys, st.edges, rest⟩ := by
        refine ⟨hinv.keysNodup, ?_, ?_, hinv.keysGood, hq, hqr, hinv.edgeSrcKeys, ?_, hinv.edgeForm, ?_⟩
        · have := hinv.workNodup
          rw [hwe] at this
          exact (List.nodup_cons.mp this).2
        · intro p hp
          exact hinv.workKeys p (hwe ▸ List.mem_cons_of_mem q hp)
        · intro e he hw
          exact hinv.edgeSrcDone e he (hwe ▸ List.mem_cons_of_mem q hw)
        · intro p hp hpw hpq c hc hne
          have : p ∉ st.work := by
            rw [hwe]
            intro hmem
            rcases List.mem_cons.mp hmem with h | h
            · exact hpq h
            · exact hpw h
          exact hinv.doneComplete p hp this c hc hne
      have hnone : ∀ c ∈ A.sigma, findEdge st.edges (q, some c) = none := by
        intro c _
        apply findEdge_none_of_src_ne
        intro e he hqe
        exact hinv.edgeSrcDone e he (hqe ▸ hwe ▸ List.mem_cons_self q rest)
      rcases processSymbols_spec A wf q A.sigma (fun c hc => hc) wf.2.2
        ⟨st.keys, st.edges, rest⟩ hmid hnone with
        ⟨st1, hrun1, hmid1, hfind1, _, hkeys1, hwork1, hlen1⟩
      have hinv1 : RSInv A st1 := by
        refine ⟨hmid1.keysNodup, hmid1.workNodup, hmid1.workKeys, hmid1.keysGood,
          hmid1.edgeSrcKeys, hmid1.edgeSrcDone, hmid1.edgeForm, ?_⟩
        intro p hp hpw c hc hne
        by_cases hpq : p = q
        · subst hpq
          have := hfind1 c hc
          rw [if_neg hne] at this
          exact this
        · exact hmid1.doneCompleteExc p hp hpw hpq c hc hne
      have hb0 : st.keys.length ≤ 2 ^ A.states.card :=
        rsKeys_length_le A st hinv.keysNodup (fun p hp => (hinv.keysGood p hp).1)
      have hb1 : st1.keys.length ≤ 2 ^ A.states.card :=
        rsKeys_length_le A st1 hinv1.keysNodup (fun p hp => (hinv1.keysGood p hp).1)
      have hm' : st1.work.length + (2 ^ A.states.card - st1.keys.length) ≤ n := by
        rw [hwe] at hm
        simp only [List.length_cons] at hm hlen1
        omega
      rcases ihn st1 hinv1 hm' with ⟨st2, hrun2, hinv2, hw2, hkeys2⟩
      refine ⟨st2, ?_, hinv2, hw2, fun p hp => hkeys2 p (hkeys1 p hp)⟩
      unfold rsLoop
      rw [hwe]
      simp only [hrun1]
      exact hrun2

/-- Master specification of the subset construction: for every well-formed
NFA, NFA._rabin_scott terminates without raising, with an empty worklist,
the full loop invariant, and the initial configuration among the keys. -/
theorem rabinScott_spec (A : NFAAut) (wf : A.WF) :
    ∃ st, rabinScott A = .ok st ∧ RSInv A st ∧ st.work = [] ∧
      epsilonClosure A A.initial ∈ st.keys := by
  have hq0sub : epsilonClosure A A.initial ⊆ A.states := epsilonClosure_subset wf wf.1
  have hq0ne : epsilonClosure A A.initial ≠ ∅ := by
    intro h
    have := self_mem_epsilonClosure A A.initial
    rw [h] at this
    exact absurd this (Finset.not_mem_empty _)
  have hinv0 : RSInv A ⟨[epsilonClosure A A.initial], [], [epsilonClosure A A.initial]⟩ := by
    refine ⟨List.nodup_singleton _, List.nodup_singleton _, fun q hq => hq, ?_,
      fun e he => absurd he (List.not_mem_nil e), fun e he => absurd he (List.not_mem_nil e),
      fun e he => absurd he (List.not_mem_nil e), ?_⟩
    · intro p hp
      rw [List.mem_singleton] at hp
      rw [hp]
      exact ⟨hq0sub, hq0ne, epsilonClosure_closed wf wf.1⟩
    · intro p hp hpw
      rw [List.mem_singleton] at hp
      exact absurd (hp ▸ List.mem_singleton_self _) hpw
  have hm0 : ([epsilonClosure A A.initial] : List Config).length +
      (2 ^ A.states.card - ([epsilonClosure A A.initial] : List Config).length) ≤
      2 ^ A.states.card := by
    have : 1 ≤ 2 ^ A.states.card := Nat.one_le_two_pow
    simp only [List.length_cons, List.length_nil]
    omega
  rcases rsLoop_spec A wf (2 ^ A.states.card)
    ⟨[epsilonClosure A A.initial], [], [epsilonClosure A A.initial]⟩ hinv0 hm0 with
    ⟨st, hrun, hinv, hw, hkeys⟩
  exact ⟨st, hrun, hinv, hw, hkeys _ (List.mem_singleton_self _)⟩

/-- C7: in the DFA produced by NFA.to_dfa, every configuration T backing a
DFA state is epsilon-closed (T equals the epsilon closure of T), and for
every symbol c of SIGMA the state has a c-transition if and only if
EpsilonClosure(Delta(T, c)) is nonempty, in which case the target
configuration is exactly EpsilonClosure(Delta(T, c)). -/
theorem claim_C7_subset_closure (A : NFAAut) (wf : A.WF) :
    ∃ st, rabinScott A = .ok st ∧
      (∀ T ∈ st.keys, closureOf A T = T) ∧
      (∀ T ∈ st.keys, ∀ c ∈ A.sigma,
        (deltaClosure A T c ≠ ∅ →
          findEdge st.edges (T, some c) = some (deltaClosure A T c)) ∧
        (deltaClosure A T c = ∅ → findEdge st.edges (T, some c) = none)) := by
  rcases rabinScott_spec A wf with ⟨st, hrun, hinv, hw, _⟩
  refine ⟨st, hrun, ?_, ?_⟩
  · intro T hT
    exact closureOf_eq_self wf (hinv.keysGood T hT).1 (hinv.keysGood T hT).2.2
  · intro T hT c hc
    constructor
    · intro hne
      exact hinv.doneComplete T hT (by rw [hw]; exact List.not_mem_nil T) c hc hne
    · intro hempty
      cases hfe : findEdge st.edges (T, some c) with
      | none => rfl
      | some t =>
        exfalso
        rcases findEdge_some_mem hfe with ⟨e, he, hkey, htgt⟩
        rcases hinv.edgeForm e he with ⟨c', _, h1, h2, h3, _⟩
        have hc' : c' = c := by
          have : e.1.2 = some c := by rw [hkey]
          rw [h1] at this
          exact Option.some.inj this
        have hT' : e.1.1 = T := by rw [hkey]
        rw [hc', hT'] at h2
        rw [h2, hempty] at h3
        exact h3 rfl

/-- Concrete two-state NFA used to witness the subset-construction claims:
state 0 goes to state 1 on symbol 0, state 1 accepts rule 1. -/
def nfaExRS : NFAAut where
  states := {0, 1}
  trans := fun s k => if s = 0 ∧ k = some 0 then {1} else ∅
  accepting := fun s => if s = 1 then some 1 else none
  initial := 0
  sigma := [0]

theorem nfaExRS_wf : nfaExRS.WF := by
  refine ⟨by decide, ?_, by decide⟩
  intro s k
  by_cases h : s = 0 ∧ k = some 0
  · show (if s = 0 ∧ k = some 0 then ({1} : Finset Nat) else ∅) ⊆ {0, 1}
    rw [if_pos h]
    decide
  · show (if s = 0 ∧ k = some 0 then ({1} : Finset Nat) else ∅) ⊆ {0, 1}
    rw [if_neg h]
    exact Finset.empty_subset _

theorem claim_C7_witness :
    ∃ st, rabinScott nfaExRS = .ok st ∧
      (∀ T ∈ st.keys, closureOf nfaExRS T = T) ∧
      (∀ T ∈ st.keys, ∀ c ∈ nfaExRS.sigma,
        (deltaClosure nfaExRS T c ≠ ∅ →
          findEdge st.edges (T, some c) = some (deltaClosure nfaExRS T c)) ∧
        (deltaClosure nfaExRS T c = ∅ → findEdge st.edges (T, some c) = none)) :=
  claim_C7_subset_closure nfaExRS nfaExRS_wf

/-- C10: for every well-formed input NFA, the subset construction never
trips either assertion of DFAState.add_transition (the symbol passed is
some symbol of SIGMA, never the epsilon key, and no (state, symbol) pair is
added twice), so NFA.to_dfa returns without raising: the model, in which
dfaAddTransition surfaces both assertions as errors, always returns ok. -/
theorem claim_C10_no_assertion_failure (A : NFAAut) (wf : A.WF) :
    ∃ st, rabinScott A = .ok st := by
  rcases rabinScott_spec A wf with ⟨st, hrun, _, _, _⟩
  exact ⟨st, hrun⟩

theorem claim_C10_witness : ∃ st, rabinScott nfaExRS = .ok st :=
  claim_C10_no_assertion_failure nfaExRS nfaExRS_wf

/-! ## DFA model and minimization (pylex/dfa.py)

DFA.minimized calls DFA._hopcroft: an initial partition of the reachable
states grouped by accepting value is refined to a fixed point by
DFA._split, and a quotient DFA is rebuilt from the final partition.
Crucially, DFA._split in dfa.py compares the raw target STATES
transitions.get(c, None) of the members of a block, not the partition
blocks containing those targets (as Hopcroft._split in hopcroft.py does).
Python set iteration order is unspecified; the model fixes the ascending
order of state identifiers for the for-i-in-S loop of DFA._split. -/

/-- Model of the DFA class of dfa.py: trans models the per-state
transitions dictionaries (trans s c = none when c is not a key, matching
transitions.get(c, None)). -/
structure DFAAut where
  states : Finset Nat
  trans : Nat → Nat → Option Nat
  accepting : Nat → Option Nat
  initial : Nat
  sigma : List Nat

/-- Successor states of a DFA state: the values of its transitions
dictionary (whose keys lie in SIGMA). -/
def dfaSucc (d : DFAAut) (s : Nat) : Finset Nat :=
  (d.sigma.filterMap (fun c => d.trans s c)).toFinset

/-- States reachable from the initial state, the set walked by the aux
recursion of DFA._initial_partition. -/
def reachSet (d : DFAAut) : Finset Nat :=
  closureIn (dfaSucc d) d.states {d.initial}

/-- Model of DFA._initial_partition (dfa.py): group the reachable states
by their accepting value (none is its own class). -/
def initialPartition (d : DFAAut) : Finset (Finset Nat) :=
  ((reachSet d).image d.accepting).image
    (fun a => (reachSet d).filter (fun s => d.accepting s = a))

/-- The for-i-in-S loop of the inner splits(c) of DFA._split: the first
member i whose raw c-target disagrees with the raw c-target of some other
member splits S into the agreeing and disagreeing halves. -/
def dfaSplitLoop (d : DFAAut) (S : Finset Nat) (c : Nat) :
    List Nat → Option (Finset (Finset Nat))
  | [] => none
  | i :: rest =>
    let s1 := S.filter (fun j => d.trans j c = d.trans i c)
    let s2 := S.filter (fun j => ¬(d.trans j c = d.trans i c))
    if s1.Nonempty ∧ s2.Nonempty then some {s1, s2}
    else dfaSplitLoop d S c rest

/-- Members of a block in ascending order of state identifier (a fixed,
computable enumeration standing in for the unspecified Python set
iteration order). -/
def blockList (S : Finset Nat) : List Nat :=
  (List.range (S.sup id + 1)).filter (fun i => i ∈ S)

/-- Model of splits(c) inside DFA._split (dfa.py), iterating the block in
ascending state order. -/
def dfaSplits (d : DFAAut) (S : Finset Nat) (c : Nat) : Option (Finset (Finset Nat)) :=
  dfaSplitLoop d S c (blockList S)

/-- The for-c-in-SIGMA loop of DFA._split: return the first split found,
or the singleton containing S when no symbol splits. -/
def dfaSplitGo (d : DFAAut) (S : Finset Nat) : List Nat → Finset (Finset Nat)
  | [] => {S}
  | c :: cs =>
    match dfaSplits d S c with
    | some r => r
    | none => dfaSplitGo d S cs

/-- Model of DFA._split (dfa.py). -/
def dfaSplit (d : DFAAut) (S : Finset Nat) : Finset (Finset Nat) :=
  dfaSplitGo d S d.sigma

/-- One pass of the fixed-point loop in DFA._hopcroft: split every block
of the current partition. -/
def refinePartition (d : DFAAut) (P : Finset (Finset Nat)) : Finset (Finset Nat) :=
  P.biUnion (fun p => dfaSplit d p)

/-- The while-loop of DFA._hopcroft with explicit fuel: iterate
refinePartition to a fixed point. -/
def hopLoop (d : DFAAut) : Nat → Finset (Finset Nat) → Finset (Finset Nat)
  | 0, T => T
  | n + 1, T =>
    if refinePartition d T = T then T else hopLoop d n (refinePartition d T)

/-- The final partition computed by DFA._hopcroft, from which the quotient
DFA returned by DFA.minimized is rebuilt (one DFA state per block). -/
def hopcroftPartition (d : DFAAut) : Finset (Finset Nat) :=
  hopLoop d (d.states.card + 1) (initialPartition d)

/-- Rule matched from a DFA state by a word: run the word and report the
accepting ID of the final state (none when stuck or not accepting). The
language of a state is the set of words on which this is not none. -/
def acceptsFrom (d : DFAAut) (s : Nat) : List Nat → Option Nat
  | [] => d.accepting s
  | c :: w =>
    match d.trans s c with
    | some t => acceptsFrom d t w
    | none => none

theorem dfaSplitLoop_subset (d : DFAAut) (S : Finset Nat) (c : Nat) :
    ∀ (l : List Nat) (r : Finset (Finset Nat)), dfaSplitLoop d S c l = some r →
      ∀ B ∈ r, B ⊆ S := by
  intro l
  induction l with
  | nil => intro r hr; exact absurd hr (by simp [dfaSplitLoop])
  | cons i rest ih =>
    intro r hr B hB
    rw [dfaSplitLoop] at hr
    split_ifs at hr with h
    · have hrr := Option.some.inj hr
      rw [← hrr] at hB
      rcases Finset.mem_insert.mp hB with hB | hB
      · rw [hB]; exact Finset.filter_subset _ S
      · rw [Finset.mem_singleton.mp hB]; exact Finset.filter_subset _ S
    · exact ih r hr B hB

theorem dfaSplitGo_subset (d : DFAAut) (S : Finset Nat) :
    ∀ (cs : List Nat), ∀ B ∈ dfaSplitGo d S cs, B ⊆ S := by
  intro cs
  induction cs with
  | nil =>
    intro B hB
    rw [dfaSplitGo, Finset.mem_singleton] at hB
    rw [hB]
  | cons c cs' ih =>
    intro B hB
    rw [dfaSplitGo] at hB
    cases hs : dfaSplits d S c with
    | some r =>
      rw [hs] at hB
      exact dfaSplitLoop_subset d S c _ r hs B hB
    | none =>
      rw [hs] at hB
      exact ih B hB

/-- Uniform accepting value on a set of states. -/
def AcceptUniform (d : DFAAut) (B : Finset Nat) : Prop :=
  ∀ s ∈ B, ∀ t ∈ B, d.accepting s = d.accepting t

theorem initialPartition_uniform (d : DFAAut) :
    ∀ B ∈ initialPartition d, AcceptUniform d B := by
  intro B hB
  rcases Finset.mem_image.mp hB with ⟨a, _, hBa⟩
  intro s hs t ht
  rw [← hBa] at hs ht
  rw [(Finset.mem_filter.mp hs).2, (Finset.mem_filter.mp ht).2]

theorem refinePartition_uniform (d : DFAAut) (P : Finset (Finset Nat))
    (h : ∀ B ∈ P, AcceptUniform d B) :
    ∀ B ∈ refinePartition d P, AcceptUniform d B := by
  intro B hB
  rcases Finset.mem_biUnion.mp hB with ⟨p, hp, hBp⟩
  have hsub : B ⊆ p := dfaSplitGo_subset d p d.sigma B hBp
  intro s hs t ht
  exact h p hp s (hsub hs) t (hsub ht)

theorem hopLoop_uniform (d : DFAAut) :
    ∀ (fuel : Nat) (T : Finset (Finset Nat)), (∀ B ∈ T, AcceptUniform d B) →
      ∀ B ∈ hopLoop d fuel T, AcceptUniform d B := by
  intro fuel
  induction fuel with
  | zero => intro T hT; exact hT
  | succ n ih =>
    intro T hT B hB
    rw [hopLoop] at hB
    split_ifs at hB with h
    · exact hT B hB
    · exact ih (refinePartition d T) (refinePartition_uniform d T hT) B hB

/-- C6: every block of the partitions manipulated by DFA._hopcroft is
uniform in accepting ID: the initial partition groups states by accepting
value, DFA._split only subdivides a block, and hence every block of the
final partition (for any fuel, in particular the fixed point computed by
hopcroftPartition) is accept-uniform, so states accepting different rules
are never merged by DFA.minimized. -/
theorem claim_C6_partition_accept_uniform (d : DFAAut) :
    (∀ B ∈ initialPartition d, AcceptUniform d B) ∧
    (∀ S : Finset Nat, ∀ B ∈ dfaSplit d S, B ⊆ S) ∧
    (∀ fuel, ∀ B ∈ hopLoop d fuel (initialPartition d), AcceptUniform d B) :=
  ⟨initialPartition_uniform d,
   fun S B hB => dfaSplitGo_subset d S d.sigma B hB,
   fun fuel => hopLoop_uniform d fuel (initialPartition d) (initialPartition_uniform d)⟩

/-- Concrete DFA on which DFA.minimized fails to minimize: 0 goes to 1 on
symbol 0 and to 2 on symbol 1; 1 and 2 both step on symbol 0 into the
accepting sink states 3 and 4 (both accepting rule 1). States 1 and 2
accept exactly the same language with the same accept class, yet their raw
symbol-0 targets are the distinct (equivalent) states 3 and 4. -/
def dfaEx : DFAAut where
  states := {0, 1, 2, 3, 4}
  trans := fun s c =>
    if s = 0 ∧ c = 0 then some 1
    else if s = 0 ∧ c = 1 then some 2
    else if s = 1 ∧ c = 0 then some 3
    else if s = 2 ∧ c = 0 then some 4
    else none
  accepting := fun s => if s = 3 ∨ s = 4 then some 1 else none
  initial := 0
  sigma := [0, 1]

theorem dfaEx_lang34 : ∀ w : List Nat, acceptsFrom dfaEx 3 w = acceptsFrom dfaEx 4 w := by
  intro w
  cases w with
  | nil => rfl
  | cons c w' =>
    have h3 : dfaEx.trans 3 c = none := by simp [dfaEx]
    have h4 : dfaEx.trans 4 c = none := by simp [dfaEx]
    simp [acceptsFrom, h3, h4]

/-- C1: the partition computed by DFA._hopcroft on dfaEx keeps the
equivalent states 1 and 2 in distinct blocks, because DFA._split (dfa.py)
splits their block on symbol 0: it compares the raw target states (3
versus 4) instead of the partition blocks containing them (3 and 4 share a
block). The rebuilt DFA therefore has two distinct states with the same
accepting ID and the same language from those states: DFA.minimized is
not minimal with respect to accept classes, refuting the claim on this
input (hopcroft.py would merge them, but DFA.minimized uses DFA._split). -/
theorem claim_C1_minimized_not_minimal :
    ({1} : Finset Nat) ∈ hopcroftPartition dfaEx ∧
    ({2} : Finset Nat) ∈ hopcroftPartition dfaEx ∧
    ({1} : Finset Nat) ≠ ({2} : Finset Nat) ∧
    dfaEx.accepting 1 = dfaEx.accepting 2 ∧
    ∀ w : List Nat, acceptsFrom dfaEx 1 w = acceptsFrom dfaEx 2 w := by
  refine ⟨by decide, by decide, by decide, by decide, ?_⟩
  intro w
  cases w with
  | nil => decide
  | cons c w' =>
    by_cases hc : c = 0
    · subst hc
      have h1 : dfaEx.trans 1 0 = some 3 := by decide
      have h2 : dfaEx.trans 2 0 = some 4 := by decide
      simp only [acceptsFrom, h1, h2]
      exact dfaEx_lang34 w'
    · have h1 : dfaEx.trans 1 c = none := by simp [dfaEx, hc]
      have h2 : dfaEx.trans 2 c = none := by simp [dfaEx, hc]
      simp [acceptsFrom, h1, h2]

theorem claim_C6_witness :
    dfaEx.accepting 1 = dfaEx.accepting 2 ∧
    ({1} : Finset Nat) ⊆ {1, 2} ∧
    dfaEx.accepting 3 = dfaEx.accepting 4 :=
  ⟨(claim_C6_partition_accept_uniform dfaEx).1 {0, 1, 2} (by decide) 1 (by decide) 2 (by decide),
   (claim_C6_partition_accept_uniform dfaEx).2.1 {1, 2} {1} (by decide),
   (claim_C6_partition_accept_uniform dfaEx).2.2 6 {3, 4} (by decide) 3 (by decide) 4 (by decide)⟩

/-! ## Regex parser (pylex/reparser.py)

The parser pulls tokens one at a time from the scanner; at end of input
the scanner keeps returning EOF. The model works on a list of tokens
where the current token is the head and an exhausted list reads as EOF.
Every parsing function takes explicit recursion fuel consumed on entry;
any fuel larger than the nesting depth gives the behavior of the source
(parseTopLevel supplies a sufficient budget). -/

/-- Model of the Token categories of token.py; symbol carries the symbol
attribute, charclass the char_class attribute. -/
inductive RTok where
  | eof
  | eol
  | star
  | plus
  | pipe
  | lparen
  | rparen
  | symbol (c : Nat)
  | charclass (s : List Nat)
deriving DecidableEq, Repr

/-- Model of Token.is_end (token.py). -/
def RTok.isEnd : RTok → Bool
  | .eof => true
  | .eol => true
  | _ => false

/-- Model of the AST node classes of ast.py: SymbolAST, KleeneAST,
AlternationAST, ConcatenationAST. -/
inductive RAst where
  | sym (c : Nat)
  | kleene (a : RAst)
  | alt (l r : RAst)
  | cat (l r : RAst)
deriving DecidableEq, Repr

/-- Current token: head of the stream, EOF once exhausted (the scanner of
rescanner.py returns EOF forever at end of input). -/
def peek : List RTok → RTok
  | [] => .eof
  | t :: _ => t

/-- Model of RegexParser._consume_token: advance to the next token. -/
def advance : List RTok → List RTok
  | [] => []
  | _ :: ts => ts

mutual

/-- Model of RegexParser._parse_term (reparser.py): SYMBOL yields a leaf,
LPAREN enters a parenthetical, anything else (including CHARCLASS) raises
ParsingError. -/
def parseTerm : Nat → List RTok → Except String (RAst × List RTok)
  | 0, _ => .error "recursion limit"
  | fuel + 1, ts =>
    match peek ts with
    | .symbol c => .ok (.sym c, advance ts)
    | .lparen => parseParenthetical fuel ts
    | _ => .error "expected regex term"

/-- Model of RegexParser._parse_parenthetical (reparser.py). -/
def parseParenthetical : Nat → List RTok → Except String (RAst × List RTok)
  | 0, _ => .error "recursion limit"
  | fuel + 1, ts =>
    match parseRegex fuel (advance ts) with
    | .error e => .error e
    | .ok (a, ts1) =>
      match peek ts1 with
      | .rparen => .ok (a, advance ts1)
      | _ => .error "unmatched parentheses"

/-- Model of RegexParser._parse_regex (reparser.py). -/
def parseRegex : Nat → List RTok → Except String (RAst × List RTok)
  | 0, _ => .error "recursion limit"
  | fuel + 1, ts => parseAlternation fuel ts

/-- Model of RegexParser._parse_kleene (reparser.py): a term optionally
followed by STAR; no other postfix operator is consumed. -/
def parseKleene : Nat → List RTok → Except String (RAst × List RTok)
  | 0, _ => .error "recursion limit"
  | fuel + 1, ts =>
    match parseTerm fuel ts with
    | .error e => .error e
    | .ok (a, ts1) =>
      match peek ts1 with
      | .star => .ok (.kleene a, advance ts1)
      | _ => .ok (a, ts1)

/-- Model of RegexParser._parse_concatenation (reparser.py). -/
def parseConcatenation : Nat → List RTok → Except String (RAst × List RTok)
  | 0, _ => .error "recursion limit"
  | fuel + 1, ts =>
    match parseKleene fuel ts with
    | .error e => .error e
    | .ok (l, ts1) =>
      match peek ts1 with
      | .symbol _ =>
        match parseConcatenation fuel ts1 with
        | .error e => .error e
        | .ok (r, ts2) => .ok (.cat l r, ts2)
      | .lparen =>
        match parseConcatenation fuel ts1 with
        | .error e => .error e
        | .ok (r, ts2) => .ok (.cat l r, ts2)
      | _ => .ok (l, ts1)

/-- Model of RegexParser._parse_alternation (reparser.py). -/
def parseAlternation : Nat → List RTok → Except String (RAst × List RTok)
  | 0, _ => .error "recursion limit"
  | fuel + 1, ts =>
    match parseConcatenation fuel ts with
    | .error e => .error e
    | .ok (l, ts1) =>
      match peek ts1 with
      | .pipe =>
        match parseAlternation fuel (advance ts1) with
        | .error e => .error e
        | .ok (r, ts2) => .ok (.alt l r, ts2)
      | _ => .ok (l, ts1)

end

/-- Model of the while-loop of RegexParser.parse_top_level (reparser.py). -/
def parseLines : Nat → List RTok → Except String (List RAst)
  | 0, _ => .error "recursion limit"
  | fuel + 1, ts =>
    match peek ts with
    | .eof => .ok []
    | .eol => parseLines fuel (advance ts)
    | _ =>
      match parseRegex fuel ts with
      | .error e => .error e
      | .ok (a, ts1) =>
        if (peek ts1).isEnd then
          match parseLines fuel (advance ts1) with
          | .error e => .error e
          | .ok rest => .ok (a :: rest)
        else .error "junk after regex"

/-- Model of RegexParser.parse_top_level (reparser.py), with a fuel budget
comfortably above the recursion depth of any run on the given tokens. -/
def parseTopLevel (ts : List RTok) : Except String (List RAst) :=
  parseLines (8 * (ts.length + 1)) ts

/-- C2 counterexample: an input line consisting of a single
character-class token (the token stream of the line [ab], with char_class
containing the code points of a and b) does not parse: parse_top_level
raises ParsingError expected regex term, because _parse_term handles only
SYMBOL and LPAREN and has no CHARCLASS case. This refutes the claim that
such a line succeeds with a character-class AST leaf. -/
theorem claim_C2_counterexample :
    parseTopLevel [.charclass [97, 98]] = .error "expected regex term" := rfl

/-- C2 amended: RegexParser._parse_term raises ParsingError expected regex
term exactly when the token in term position is neither SYMBOL nor LPAREN;
in particular CHARCLASS tokens are rejected (the parser of reparser.py has
no character-class support, matching its grammar docstring
term ::= symbol | parenthetical). -/
theorem claim_C2_expected_regex_term :
    (∀ (fuel : Nat) (c : Nat) (ts : List RTok),
      parseTerm (fuel + 1) (.symbol c :: ts) = .ok (.sym c, ts)) ∧
    (∀ (fuel : Nat) (t : RTok) (ts : List RTok),
      (∀ c, t ≠ .symbol c) → t ≠ .lparen →
      parseTerm (fuel + 1) (t :: ts) = .error "expected regex term") := by
  constructor
  · intro fuel c ts
    rfl
  · intro fuel t ts hsym hlp
    cases t with
    | symbol c => exact absurd rfl (hsym c)
    | lparen => exact absurd rfl hlp
    | eof => rfl
    | eol => rfl
    | star => rfl
    | plus => rfl
    | pipe => rfl
    | rparen => rfl
    | charclass s => rfl

theorem claim_C2_witness :
    parseTerm 1 [RTok.charclass [97, 98]] = .error "expected regex term" :=
  claim_C2_expected_regex_term.2 0 (RTok.charclass [97, 98]) []
    (fun c => by simp) (by simp)

/-- C3 counterexample: the input line consisting of the term a followed by
the postfix operator plus is rejected by parse_top_level with ParsingError
junk after regex (the token stream of the line a+), refuting the claim
that it is accepted with AST Concat(a, Kleene(a)). -/
theorem claim_C3_counterexample :
    parseTopLevel [.symbol 97, .plus] = .error "junk after regex" := rfl

/-- C3 amended: RegexParser._parse_kleene consumes only STAR after a term;
whenever the term parse succeeds with a PLUS token next, the PLUS is left
unconsumed, and a line consisting of a term followed by plus then fails in
parse_top_level with ParsingError junk after regex. -/
theorem claim_C3_plus_not_supported :
    (∀ (fuel : Nat) (ts : List RTok) (a : RAst) (rest : List RTok),
      parseTerm fuel ts = .ok (a, .plus :: rest) →
      parseKleene (fuel + 1) ts = .ok (a, .plus :: rest)) ∧
    (∀ c : Nat, parseTopLevel [.symbol c, .plus] = .error "junk after regex") := by
  constructor
  · intro fuel ts a rest h
    unfold parseKleene
    rw [h]
    rfl
  · intro c
    rfl

theorem claim_C3_witness :
    parseKleene 2 [RTok.symbol 97, RTok.plus] = .ok (RAst.sym 97, [RTok.plus]) :=
  claim_C3_plus_not_supported.1 1 [RTok.symbol 97, RTok.plus] (RAst.sym 97) [] rfl

/-! ## Character classes (RegexScanner._lex_char_class in rescanner.py)

Characters are modelled by their code points (45 is the hyphen, 93 the
closing bracket, 94 the caret). The while-loop of _lex_char_class carries
the accumulated character set, range_start and prev_c (empty string
modelled as none), and the current character c (none at end of input). -/

/-- Model of the while-loop of RegexScanner._lex_char_class: arguments are
the characters set, range_start, prev_c (the Python empty string modelled
as none), and the remaining input whose head is the current character
(exhausted input is the end-of-file read, on which the loop exits and the
scanner raises unmatched). Returns the final characters set and the
remaining input, or the ScanningError message. -/
def classLoop : Finset Nat → Option Nat → Option Nat → List Nat →
    Except String (Finset Nat × List Nat)
  | _, _, _, [] => .error "unmatched [ or [^"
  | chars, rs, prev, c :: rest =>
    if c = 93 then
      .ok ((if prev = some 45 then
              (match rs with
               | some r => insert 45 (insert r chars)
               | none => insert 45 chars)
            else chars), rest)
    else if c = 45 then
      match prev with
      | some _ => classLoop chars prev (some 45) rest
      | none => classLoop (insert 45 chars) rs (some 45) rest
    else
      match rs with
      | some r =>
        if c < r then .error "invalid range end"
        else classLoop (chars ∪ Finset.Icc r c) none (some c) rest
      | none => classLoop (insert c chars) rs (some c) rest

/-- Model of RegexScanner._lex_char_class (rescanner.py), on the input
following the opening bracket: optional leading caret inverts against
sigma at close, a closing bracket as first content byte is literal, then
the main loop runs. -/
def lexCharClass (sigma : Finset Nat) (input : List Nat) :
    Except String (Finset Nat × List Nat) :=
  let p1 : Bool × List Nat :=
    match input with
    | 94 :: r => (true, r)
    | _ => (false, input)
  let p2 : Finset Nat × List Nat :=
    match p1.2 with
    | 93 :: r => ({93}, r)
    | _ => (∅, p1.2)
  match classLoop p2.1 none none p2.2 with
  | .error e => .error e
  | .ok (chars, rest') => .ok ((if p1.1 then sigma \ chars else chars), rest')

/-- C8: inside a character class, a form x-y with x processed as a literal
byte and x less than or equal to y adds the whole inclusive range of code
points from x to y (first conjunct); if y is smaller than x, the scanner
raises ScanningError invalid range end (second conjunct); a hyphen with no
preceding literal is added as a literal hyphen (third conjunct); and a
trailing hyphen immediately before the closing bracket is added as a
literal hyphen, together with a pending range start if one exists (last
two conjuncts). -/
theorem claim_C8_char_class_ranges :
    (∀ (chars : Finset Nat) (prev : Option Nat) (x y : Nat) (rest : List Nat),
      x ≠ 45 → x ≠ 93 → y ≠ 45 → y ≠ 93 → x ≤ y →
      classLoop chars none prev (x :: 45 :: y :: rest) =
        classLoop (insert x chars ∪ Finset.Icc x y) none (some y) rest) ∧
    (∀ (chars : Finset Nat) (prev : Option Nat) (x y : Nat) (rest : List Nat),
      x ≠ 45 → x ≠ 93 → y ≠ 45 → y ≠ 93 → y < x →
      classLoop chars none prev (x :: 45 :: y :: rest) =
        .error "invalid range end") ∧
    (∀ (chars : Finset Nat) (rs : Option Nat) (rest : List Nat),
      classLoop chars rs none (45 :: rest) =
        classLoop (insert 45 chars) rs (some 45) rest) ∧
    (∀ (chars : Finset Nat) (rest : List Nat),
      classLoop chars none (some 45) (93 :: rest) = .ok (insert 45 chars, rest)) ∧
    (∀ (chars : Finset Nat) (r : Nat) (rest : List Nat),
      classLoop chars (some r) (some 45) (93 :: rest) =
        .ok (insert 45 (insert r chars), rest)) := by
  refine ⟨?_, ?_, ?_, ?_, ?_⟩
  · intro chars prev x y rest hx45 hx93 hy45 hy93 hxy
    have hnlt : ¬ y < x := Nat.not_lt.mpr hxy
    simp [classLoop, hx45, hx93, hy45, hy93, hnlt]
  · intro chars prev x y rest hx45 hx93 hy45 hy93 hyx
    simp [classLoop, hx45, hx93, hy45, hy93, hyx]
  · intro chars rs rest
    rfl
  · intro chars rest
    rfl
  · intro chars r rest
    rfl

theorem claim_C8_witness :
    classLoop ∅ none none [97, 45, 99, 93] =
      classLoop (insert 97 ∅ ∪ Finset.Icc 97 99) none (some 99) [93] :=
  claim_C8_char_class_ranges.1 ∅ none 97 99 [93]
    (by decide) (by decide) (by decide) (by decide) (by decide)

/-! ## Automaton state objects (pylex/automaton.py and nfa.py)

AutomatonState carries accepting, a transitions dictionary, the number
assigned by Automaton._number_states, and the memoized epsilon closure of
NFAState. automaton.py defines the guard _ensure_not_numbered, but
NFAState.add_transition (and DFAState.add_transition) never call it. -/

/-- Model of an AutomatonState object (automaton.py / nfa.py): the NFA
transitions dictionary is an association list from symbol (none = epsilon)
to the list of target state identifiers, and epsCache models the memoized
_epsilon_closure attribute (none when absent). -/
structure AutState where
  accepting : Option Nat
  transitions : List (Option Nat × List Nat)
  number : Option Nat
  epsCache : Option (List Nat)
deriving DecidableEq, Repr

/-- Model of AutomatonState._ensure_not_numbered (automaton.py): raise
ValueError when the state has been numbered. -/
def ensureNotNumbered (s : AutState) : Except String Unit :=
  match s.number with
  | some _ => .error "cannot modify state in automaton"
  | none => .ok ()

/-- Dictionary update self.transitions[symbol].add(to), creating the
singleton set on KeyError, as in NFAState.add_transition. -/
def assocAdd : List (Option Nat × List Nat) → Option Nat → Nat →
    List (Option Nat × List Nat)
  | [], k, v => [(k, [v])]
  | (k', vs) :: r, k, v =>
    if k' = k then (k', if v ∈ vs then vs else vs ++ [v]) :: r
    else (k', vs) :: assocAdd r k v

/-- Model of NFAState.add_transition (nfa.py): invalidate the memoized
epsilon closure of this state and add the target to the symbol entry of
the transitions dictionary. The body contains no numbering check and
cannot fail. -/
def nfaStateAddTransition (s : AutState) (sym : Option Nat) (t : Nat) : AutState :=
  { s with epsCache := none, transitions := assocAdd s.transitions sym t }

/-- A state as it looks after Automaton._number_states ran over it: it has
been assigned number 0 and has no transitions yet. -/
def frozenState : AutState := ⟨none, [], some 0, none⟩

/-- C5: refutation on the code of the claim that add_transition on a
numbered state fails and leaves transitions unchanged. frozenState is
numbered, and the guard _ensure_not_numbered would indeed reject a
mutation, but NFAState.add_transition never invokes it: the call succeeds
silently and the transitions dictionary is changed. -/
theorem claim_C5_frozen_add_transition_unchecked :
    frozenState.number ≠ none ∧
    ensureNotNumbered frozenState = .error "cannot modify state in automaton" ∧
    nfaStateAddTransition frozenState (some 7) 1 = ⟨none, [(some 7, [1])], some 0, none⟩ ∧
    (nfaStateAddTransition frozenState (some 7) 1).transitions ≠ frozenState.transitions :=
  ⟨by decide, rfl, rfl, by decide⟩

/-! ## Memoized epsilon closure (NFAState.epsilon_closure in nfa.py)

The closure of a state is memoized in the attribute _epsilon_closure;
NFAState.add_transition deletes only the cache of the mutated state
itself. The graph-level model below carries the per-state cache
explicitly. -/

/-- An NFA state graph with the per-state memoized closure cache. -/
structure NFAGraph where
  states : Finset Nat
  trans : Nat → Option Nat → Finset Nat
  cache : Nat → Option (Finset Nat)

/-- Well-formedness: transitions stay inside the state set. -/
def NFAGraph.WF (g : NFAGraph) : Prop :=
  ∀ s k, g.trans s k ⊆ g.states

/-- Model of NFAState.add_transition at graph level: add the target to
the symbol entry of the source state and invalidate the cache of the
source state only. -/
def graphAddTransition (g : NFAGraph) (s : Nat) (k : Option Nat) (t : Nat) : NFAGraph :=
  { g with
    trans := fun s' k' => if s' = s ∧ k' = k then insert t (g.trans s' k') else g.trans s' k',
    cache := fun s' => if s' = s then none else g.cache s' }

/-- The worklist computation in the cache-miss branch of
NFAState.epsilon_closure: saturate from the state along epsilon edges. -/
def graphClosureCompute (g : NFAGraph) (s : Nat) : Finset Nat :=
  closureIn (fun x => g.trans x none) g.states {s}

/-- Model of NFAState.epsilon_closure (nfa.py): return the memoized value
if present, otherwise compute the closure and memoize it. Returns the
closure and the graph with the updated cache. -/
def epsilonClosureCall (g : NFAGraph) (s : Nat) : Finset Nat × NFAGraph :=
  match g.cache s with
  | some v => (v, g)
  | none =>
    (graphClosureCompute g s,
     { g with cache := fun s' => if s' = s then some (graphClosureCompute g s) else g.cache s' })

/-- Reachability by epsilon transitions in the graph as it currently is. -/
def GEpsReach (g : NFAGraph) (s x : Nat) : Prop :=
  ReachBy (fun a => g.trans a none) s x

/-- Empty three-state graph for the staleness counterexample. -/
def cacheEx0 : NFAGraph := ⟨{0, 1, 2}, fun _ _ => ∅, fun _ => none⟩

/-- Add the epsilon edge 0 to 1. -/
def cacheEx1 : NFAGraph := graphAddTransition cacheEx0 0 none 1

/-- Compute and memoize the closure of state 0 (which is {0, 1}). -/
def cacheEx2 : NFAGraph := (epsilonClosureCall cacheEx1 0).2

/-- Then add the epsilon edge 1 to 2: only the cache of state 1 is
invalidated, state 0 keeps its now stale memoized closure. -/
def cacheEx3 : NFAGraph := graphAddTransition cacheEx2 1 none 2

/-- C9 counterexample: after computing the closure of state 0 and then
adding an epsilon edge from state 1 to state 2, epsilon_closure of state 0
returns the stale memoized set {0, 1}, although state 2 is now reachable
from state 0 by epsilon transitions: add_transition on another state does
not invalidate the cache of state 0, refuting the claim. -/
theorem claim_C9_counterexample :
    (epsilonClosureCall cacheEx3 0).1 = {0, 1} ∧
    graphClosureCompute cacheEx3 0 = {0, 1, 2} ∧
    GEpsReach cacheEx3 0 2 ∧
    (2 : Nat) ∉ (epsilonClosureCall cacheEx3 0).1 := by
  refine ⟨by decide, by decide, ?_, by decide⟩
  have h01 : (1 : Nat) ∈ cacheEx3.trans 0 none := by decide
  have h12 : (2 : Nat) ∈ cacheEx3.trans 1 none := by decide
  exact Relation.ReflTransGen.tail (Relation.ReflTransGen.single h01) h12

/-- C9 amended: a cache-miss call of NFAState.epsilon_closure returns
exactly the set of states epsilon-reachable in the graph at the time of
the call, and a cache-hit call returns the memoized value; add_transition
invalidates the cache of the mutated state itself and leaves the caches of
all other states untouched, so a closure memoized before a mutation of
another state can be stale (claim_C9_counterexample). -/
theorem claim_C9_closure_cache (g : NFAGraph) (s : Nat) (wfg : g.WF) (hs : s ∈ g.states) :
    (g.cache s = none → ∀ x, x ∈ (epsilonClosureCall g s).1 ↔ GEpsReach g s x) ∧
    (∀ v, g.cache s = some v → (epsilonClosureCall g s).1 = v) ∧
    (∀ (k : Option Nat) (t : Nat), (graphAddTransition g s k t).cache s = none) ∧
    (∀ (s' : Nat) (k : Option Nat) (t : Nat), s' ≠ s →
      (graphAddTransition g s' k t).cache s = g.cache s) := by
  refine ⟨?_, ?_, ?_, ?_⟩
  · intro hcache x
    have h1 : (epsilonClosureCall g s).1 = graphClosureCompute g s := by
      rw [epsilonClosureCall, hcache]
    rw [h1, graphClosureCompute,
      mem_closureIn_iff (Finset.singleton_subset_iff.mpr hs) (fun y _ => wfg y none)]
    simp [GEpsReach]
  · intro v hv
    rw [epsilonClosureCall, hv]
  · intro k t
    simp [graphAddTransition]
  · intro s' k t hne
    simp only [graphAddTransition]
    rw [if_neg (fun h : s = s' => hne h.symm)]

theorem claim_C9_witness :
    (cacheEx1.cache 0 = none →
      ∀ x, x ∈ (epsilonClosureCall cacheEx1 0).1 ↔ GEpsReach cacheEx1 0 x) ∧
    (∀ v, cacheEx1.cache 0 = some v → (epsilonClosureCall cacheEx1 0).1 = v) ∧
    (∀ (k : Option Nat) (t : Nat), (graphAddTransition cacheEx1 0 k t).cache 0 = none) ∧
    (∀ (s' : Nat) (k : Option Nat) (t : Nat), s' ≠ 0 →
      (graphAddTransition cacheEx1 s' k t).cache 0 = cacheEx1.cache 0) :=
  claim_C9_closure_cache cacheEx1 0
    (by
      intro s k x hx
      simp only [cacheEx1, cacheEx0, graphAddTransition] at hx ⊢
      split_ifs at hx with h
      · rcases Finset.mem_insert.mp hx with hx | hx
        · rw [hx]; decide
        · exact absurd hx (Finset.not_mem_empty x)
      · exact absurd hx (Finset.not_mem_empty x))
    (by decide)

end Pylex
